import Mathlib

/-!
Verification development for the `gpw` repository (`gpwgen`):
a raster→H3 tessellation pipeline and a combine stage that aggregates
binary (hex-cell, value) record streams into a compacted hexagonal index.

Embedding conventions:
* Hex cells (H3 indices) are modelled by their hierarchy: a base identifier
  plus a list of child digits (`Fin 7`), finest digit first, so the parent
  drops the head digit.  This captures exactly the properties the program
  relies on (resolution, unique parent, 7 children per cell).
* `f32`/`f64` values are modelled as exact rationals (`ℚ`); the summations
  and divisions the code performs are embedded as exact arithmetic.
* Byte streams are `List Nat` (each byte a value `< 256`).
-/

namespace Gpw

/-- A hex cell: a base (res-0) identifier together with the list of child
digits leading to it, finest digit first.  `⟨b, d :: p⟩` is the `d`-th child
of `⟨b, p⟩`. -/
structure Cell where
  base : Nat
  path : List (Fin 7)
deriving DecidableEq, Repr

/-- Resolution of a cell: the depth below its base cell. -/
def Cell.res (c : Cell) : Nat := c.path.length

/-- The `d`-th child (at resolution `path.length + 1`) of the cell
`⟨b, path⟩`. -/
def childCell (b : Nat) (path : List (Fin 7)) (d : Fin 7) : Cell :=
  ⟨b, d :: path⟩

/-- `a.anc c` : `a` is an ancestor of `c` (or `c` itself). -/
def Cell.anc (a c : Cell) : Prop :=
  a.base = c.base ∧ a.path.length ≤ c.path.length ∧
    a.path = c.path.drop (c.path.length - a.path.length)

instance (a c : Cell) : Decidable (a.anc c) := by
  unfold Cell.anc; infer_instance

theorem anc_iff_exists {a c : Cell} :
    a.anc c ↔ a.base = c.base ∧ ∃ pre, c.path = pre ++ a.path := by
  constructor
  · rintro ⟨hb, hle, hdrop⟩
    refine ⟨hb, c.path.take (c.path.length - a.path.length), ?_⟩
    conv_lhs => rw [← List.take_append_drop (c.path.length - a.path.length) c.path]
    rw [← hdrop]
  · rintro ⟨hb, pre, hpre⟩
    refine ⟨hb, ?_, ?_⟩
    · rw [hpre, List.length_append]; omega
    · rw [hpre, List.length_append, Nat.add_sub_cancel, List.drop_left]

theorem anc_refl (c : Cell) : c.anc c := by
  rw [anc_iff_exists]; exact ⟨rfl, [], rfl⟩

theorem anc_child (b : Nat) (path : List (Fin 7)) (d : Fin 7) :
    Cell.anc ⟨b, path⟩ (childCell b path d) := by
  rw [anc_iff_exists]; exact ⟨rfl, [d], rfl⟩

theorem anc_trans {a b c : Cell} (h1 : a.anc b) (h2 : b.anc c) : a.anc c := by
  rw [anc_iff_exists] at h1 h2 ⊢
  obtain ⟨hb1, p1, hp1⟩ := h1
  obtain ⟨hb2, p2, hp2⟩ := h2
  exact ⟨hb2 ▸ hb1, p2 ++ p1, by rw [hp2, hp1, List.append_assoc]⟩

theorem anc_eq_of_length {a c : Cell} (h : a.anc c)
    (hl : c.path.length ≤ a.path.length) : a = c := by
  obtain ⟨hb, hle, hdrop⟩ := h
  have : c.path.length - a.path.length = 0 := by omega
  rw [this, List.drop_zero] at hdrop
  cases a; cases c; simp_all

/-- Two ancestors of the same cell are comparable; the shorter one is an
ancestor of the longer one. -/
theorem anc_of_anc_anc {a b c : Cell} (ha : a.anc c) (hb : b.anc c)
    (hl : a.path.length ≤ b.path.length) : a.anc b := by
  rw [anc_iff_exists] at ha hb ⊢
  obtain ⟨hba, p1, hp1⟩ := ha
  obtain ⟨hbb, p2, hp2⟩ := hb
  refine ⟨hba.trans hbb.symm, p1.drop p2.length, ?_⟩
  have he : p2 ++ b.path = p1 ++ a.path := by rw [← hp1, ← hp2]
  have hlen : p2.length ≤ p1.length := by
    have := congrArg List.length he
    simp only [List.length_append] at this
    omega
  have : (p2 ++ b.path).drop p2.length = (p1 ++ a.path).drop p2.length := by rw [he]
  rwa [List.drop_left, List.drop_append_of_le_length hlen] at this

/-! ### The hex index and its operations

The combine stage uses `hextree::HexTreeMap` (an external crate) with the
repository's `SummationCompactor`.  The map is embedded as an association
list; insertion and the bottom-up compaction walk are modelled from the
spec (§4.4 HierarchicalAggregator), which describes exactly how the
external map is driven. -/

/-- The hex-indexed mapping of the combine stage, as an association list. -/
abbrev HexMap := List (Cell × ℚ)

/-- Value stored at cell `c` (first matching entry). -/
def lookupCell : HexMap → Cell → Option ℚ
  | [], _ => none
  | e :: rest, q => if e.1 = q then some e.2 else lookupCell rest q

/-- Remove every entry stored exactly at cell `c`. -/
def eraseCell : HexMap → Cell → HexMap
  | [], _ => []
  | e :: rest, c => if e.1 = c then eraseCell rest c else e :: eraseCell rest c

/-- Modelled from the spec: `HexTreeMap` insertion of a leaf value, which
overwrites any prior entry exactly at the same cell (§4.4). -/
def insertRaw (m : HexMap) (c : Cell) (v : ℚ) : HexMap :=
  (c, v) :: eraseCell m c

/-- Whether `c` is one of the 7 children of `⟨b, path⟩`. -/
def isChildOf (c : Cell) (b : Nat) (path : List (Fin 7)) : Bool :=
  c.base == b &&
    match c.path with
    | [] => false
    | _ :: rest => rest == path

/-- Remove the 7 children of `⟨b, path⟩` from the map. -/
def eraseChildren (m : HexMap) (b : Nat) (path : List (Fin 7)) : HexMap :=
  m.filter (fun e => ! isChildOf e.1 b path)

/-- `SummationCompactor::compact` (src/gpwgen/src/main.rs:161-171): refuse to
merge below the target resolution; merge a candidate parent exactly when all
7 children hold values, producing their left-associated sum. -/
def compactF (t : Nat) (c : Cell) (children : Fin 7 → Option ℚ) : Option ℚ :=
  if c.res < t then none
  else
    match children 0, children 1, children 2, children 3,
          children 4, children 5, children 6 with
    | some v0, some v1, some v2, some v3, some v4, some v5, some v6 =>
        some (v0 + v1 + v2 + v3 + v4 + v5 + v6)
    | _, _, _, _, _, _, _ => none

/-- Modelled from the spec: the bottom-up compaction walk of
`HexTreeMap::insert` with a compactor (§4.4) — starting from the inserted
cell's parent, query the compactor with the 7 children's current values;
on a merge, replace the children by the parent entry and continue upward;
stop at the first refusal.  `path` is the path of the cell just written. -/
def compactUp (t : Nat) (b : Nat) : List (Fin 7) → HexMap → HexMap
  | [], m => m
  | _ :: rest, m =>
    match compactF t ⟨b, rest⟩ (fun i => lookupCell m (childCell b rest i)) with
    | some s => compactUp t b rest (insertRaw (eraseChildren m b rest) ⟨b, rest⟩ s)
    | none => m

/-- Modelled from the spec: one record insertion of the combine loop
(src/gpwgen/src/main.rs:122-137 drives `map.insert(cell, val)`): write the
leaf, then compact bottom-up. -/
def insertRecord (t : Nat) (m : HexMap) (c : Cell) (v : ℚ) : HexMap :=
  compactUp t c.base c.path (insertRaw m c v)

/-- The combine aggregation over a stream of records (the concatenation of
all source files), starting from the empty index. -/
def runCombine (t : Nat) (l : List (Cell × ℚ)) : HexMap :=
  l.foldl (fun m r => insertRecord t m r.1 r.2) []

/-! ### The binary record codec

`combine` writes `wtr.write_u64::<LE>(cell.into_raw())` then
`wtr.write_f32::<LE>(*val)` (src/gpwgen/src/main.rs:148-151) and reads with
`(rdr.read_u64::<LE>(), rdr.read_f32::<LE>())` (lines 122-137).  A record is
modelled at the codec level as the pair of its raw 64-bit identifier and the
32-bit pattern of its value; bytes are `Nat`s below 256. -/

/-- The 8 little-endian bytes of a `u64`. -/
def u64le (n : Nat) : List Nat :=
  [n % 256, n / 256 % 256, n / 65536 % 256, n / 16777216 % 256,
   n / 4294967296 % 256, n / 1099511627776 % 256,
   n / 281474976710656 % 256, n / 72057594037927936 % 256]

/-- The 4 little-endian bytes of a 32-bit word (the `f32` bit pattern). -/
def u32le (n : Nat) : List Nat :=
  [n % 256, n / 256 % 256, n / 65536 % 256, n / 16777216 % 256]

/-- Serialization of one record: 8-byte LE identifier then 4-byte LE value
(src/gpwgen/src/main.rs:148-151). -/
def encodeRecord (r : Nat × Nat) : List Nat :=
  u64le r.1 ++ u32le r.2

/-- A record stream: the records back to back, no header or count. -/
def encodeStream : List (Nat × Nat) → List Nat
  | [] => []
  | r :: rs => encodeRecord r ++ encodeStream rs

/-- The read loop of `combine` (src/gpwgen/src/main.rs:122-137): at each
record boundary try `read_u64` then `read_f32`.  `UnexpectedEof` on the
first read breaks the loop cleanly; an error on the second read (fewer than
4 bytes left after a full identifier) is escalated.  `read_exact` returns
`UnexpectedEof` whenever fewer bytes remain than requested, so the first
read also ends the loop cleanly on a 1-7 byte trailing fragment. -/
def decodeRecords : List Nat → Except Unit (List (Nat × Nat))
  | b0 :: b1 :: b2 :: b3 :: b4 :: b5 :: b6 :: b7 ::
    b8 :: b9 :: b10 :: b11 :: rest =>
    match decodeRecords rest with
    | .ok rs =>
        .ok ((b0 + 256 * b1 + 65536 * b2 + 16777216 * b3 +
              4294967296 * b4 + 1099511627776 * b5 +
              281474976710656 * b6 + 72057594037927936 * b7,
              b8 + 256 * b9 + 65536 * b10 + 16777216 * b11) :: rs)
    | .error e => .error e
  | _ :: _ :: _ :: _ :: _ :: _ :: _ :: _ :: _ => .error ()
  | _ => .ok []

/-! ### The tessellator (src/gpwgen/src/generate.rs) -/

/-- Bottom latitude of grid cell row `row`
(`header.yllcorner + header.cellsize * (header.nrows - row - 1) as f64`,
src/gpwgen/src/generate.rs:16).  Row 0 is the top row. -/
def cellBottom (yll cs : ℚ) (nrows row : Nat) : ℚ :=
  yll + cs * ((nrows - row - 1 : Nat) : ℚ)

/-- Left longitude of grid cell column `col`
(`header.xllcorner + header.cellsize * col as f64`,
src/gpwgen/src/generate.rs:18). -/
def cellLeft (xll cs : ℚ) (col : Nat) : ℚ :=
  xll + cs * (col : ℚ)

/-- The closed four-corner ring of one grid cell in geographic degrees
(src/gpwgen/src/generate.rs:21-35): lower-left, lower-right, upper-right,
upper-left, lower-left. -/
def gridRing (xll yll cs : ℚ) (nrows row col : Nat) : List (ℚ × ℚ) :=
  [(cellLeft xll cs col, cellBottom yll cs nrows row),
   (cellLeft xll cs col + cs, cellBottom yll cs nrows row),
   (cellLeft xll cs col + cs, cellBottom yll cs nrows row + cs),
   (cellLeft xll cs col, cellBottom yll cs nrows row + cs),
   (cellLeft xll cs col, cellBottom yll cs nrows row)]

/-- Insertion of one element into a `≤`-sorted list (model of sorting). -/
def insSorted (x : Nat) : List Nat → List Nat
  | [] => [x]
  | y :: ys => if x ≤ y then x :: y :: ys else y :: insSorted x ys

/-- `hexes.sort()` (src/gpwgen/src/generate.rs:42): sort the covering cells
ascending. -/
def sortNat (l : List Nat) : List Nat := l.foldr insSorted []

/-- `hexes.dedup()` (src/gpwgen/src/generate.rs:43): remove consecutive
duplicates. -/
def dedupAdj : List Nat → List Nat
  | [] => []
  | [a] => [a]
  | a :: b :: rest => if a = b then dedupAdj (b :: rest) else a :: dedupAdj (b :: rest)

/-- The post-processing of the covering query in `tessalate_grid`
(src/gpwgen/src/generate.rs:37-45): sort, then dedup. -/
def sortDedup (raw : List Nat) : List Nat := dedupAdj (sortNat raw)

/-- The per-sample write step of `gen_to_disk`
(src/gpwgen/src/generate.rs:70-77): scale the sample value by the count of
covering hexes and emit one record per hex. -/
def scaledRecords (hexes : List Nat) (v : ℚ) : List (Nat × ℚ) :=
  hexes.map (fun h => (h, v / (hexes.length : ℚ)))

/-! ### Codec lemmas and claims C5, C6 -/

theorem decodeRecords_short : ∀ {l : List Nat}, l.length < 8 →
    decodeRecords l = .ok []
  | [], _ => rfl
  | [_], _ => rfl
  | [_, _], _ => rfl
  | [_, _, _], _ => rfl
  | [_, _, _, _], _ => rfl
  | [_, _, _, _, _], _ => rfl
  | [_, _, _, _, _, _], _ => rfl
  | [_, _, _, _, _, _, _], _ => rfl
  | _ :: _ :: _ :: _ :: _ :: _ :: _ :: _ :: _, h => by
    exfalso; simp only [List.length_cons] at h; omega

theorem decodeRecords_mid : ∀ {l : List Nat}, 8 ≤ l.length → l.length < 12 →
    decodeRecords l = .error ()
  | [], h8, _ => by exfalso; simp only [List.length_nil] at h8; omega
  | [_], h8, _ => by
    exfalso; simp only [List.length_cons, List.length_nil] at h8; omega
  | [_, _], h8, _ => by
    exfalso; simp only [List.length_cons, List.length_nil] at h8; omega
  | [_, _, _], h8, _ => by
    exfalso; simp only [List.length_cons, List.length_nil] at h8; omega
  | [_, _, _, _], h8, _ => by
    exfalso; simp only [List.length_cons, List.length_nil] at h8; omega
  | [_, _, _, _, _], h8, _ => by
    exfalso; simp only [List.length_cons, List.length_nil] at h8; omega
  | [_, _, _, _, _, _], h8, _ => by
    exfalso; simp only [List.length_cons, List.length_nil] at h8; omega
  | [_, _, _, _, _, _, _], h8, _ => by
    exfalso; simp only [List.length_cons, List.length_nil] at h8; omega
  | [_, _, _, _, _, _, _, _], _, _ => rfl
  | [_, _, _, _, _, _, _, _, _], _, _ => rfl
  | [_, _, _, _, _, _, _, _, _, _], _, _ => rfl
  | [_, _, _, _, _, _, _, _, _, _, _], _, _ => rfl
  | _ :: _ :: _ :: _ :: _ :: _ :: _ :: _ :: _ :: _ :: _ :: _ :: _, _, h12 => by
    exfalso; simp only [List.length_cons] at h12; omega

theorem decodeRecords_cons (x y : Nat) (hx : x < 18446744073709551616)
    (hy : y < 4294967296) (rest : List Nat) :
    decodeRecords (encodeRecord (x, y) ++ rest) =
      match decodeRecords rest with
      | .ok rs => .ok ((x, y) :: rs)
      | .error e => .error e := by
  show decodeRecords (u64le x ++ u32le y ++ rest) = _
  simp only [u64le, u32le, List.cons_append, List.nil_append]
  rw [decodeRecords]
  have hx' : x % 256 + 256 * (x / 256 % 256) + 65536 * (x / 65536 % 256) +
      16777216 * (x / 16777216 % 256) + 4294967296 * (x / 4294967296 % 256) +
      1099511627776 * (x / 1099511627776 % 256) +
      281474976710656 * (x / 281474976710656 % 256) +
      72057594037927936 * (x / 72057594037927936 % 256) = x := by omega
  have hy' : y % 256 + 256 * (y / 256 % 256) + 65536 * (y / 65536 % 256) +
      16777216 * (y / 16777216 % 256) = y := by omega
  rw [hx', hy']

/-- C5: every record serializes to exactly 12 bytes (8-byte LE identifier,
then 4-byte LE value), and encoding then decoding any sequence of records
returns exactly the original records. -/
theorem codec_record_roundtrip (rs : List (Nat × Nat))
    (hb : ∀ r ∈ rs, r.1 < 18446744073709551616 ∧ r.2 < 4294967296) :
    (∀ r : Nat × Nat, (encodeRecord r).length = 12) ∧
    (encodeStream rs).length = 12 * rs.length ∧
    decodeRecords (encodeStream rs) = .ok rs := by
  refine ⟨fun r => rfl, ?_, ?_⟩
  · induction rs with
    | nil => rfl
    | cons r rs ih =>
      have := ih (fun q hq => hb q (List.mem_cons_of_mem r hq))
      simp only [encodeStream, List.length_append, this, List.length_cons]
      have h12 : (encodeRecord r).length = 12 := rfl
      rw [h12]; ring
  · induction rs with
    | nil => rfl
    | cons r rs ih =>
      obtain ⟨hx, hy⟩ := hb r (List.mem_cons_self r rs)
      have ihr := ih (fun q hq => hb q (List.mem_cons_of_mem r hq))
      show decodeRecords (encodeRecord r ++ encodeStream rs) = _
      obtain ⟨x, y⟩ := r
      rw [decodeRecords_cons x y hx hy, ihr]

/-- C6 counterexample: a stream ending in the middle of a record's first
field (3 stray bytes — end-of-file mid-record, with bytes remaining) is
treated as a clean end-of-stream by the read loop, not as an error. -/
theorem decode_midrecord_eof_clean :
    decodeRecords [1, 2, 3] = .ok [] ∧ ([1, 2, 3] : List Nat) ≠ [] :=
  ⟨rfl, by decide⟩

/-- C6 (amended): reading terminates cleanly exactly when end-of-file hits
the first field read at a record boundary, i.e. when fewer than 8 bytes
remain there (trailing fragments of 1-7 bytes are silently accepted);
end-of-file during the 4-byte value field after a complete 8-byte
identifier (8-11 bytes remaining) is escalated as a truncation error. -/
theorem decode_eof_behavior (rs : List (Nat × Nat))
    (hb : ∀ r ∈ rs, r.1 < 18446744073709551616 ∧ r.2 < 4294967296)
    (extra : List Nat) :
    (extra.length < 8 → decodeRecords (encodeStream rs ++ extra) = .ok rs) ∧
    (8 ≤ extra.length → extra.length < 12 →
      decodeRecords (encodeStream rs ++ extra) = .error ()) := by
  induction rs with
  | nil =>
    exact ⟨fun h => decodeRecords_short h, fun h8 h12 => decodeRecords_mid h8 h12⟩
  | cons r rs ih =>
    obtain ⟨hx, hy⟩ := hb r (List.mem_cons_self r rs)
    obtain ⟨ih1, ih2⟩ := ih (fun q hq => hb q (List.mem_cons_of_mem r hq))
    obtain ⟨x, y⟩ := r
    constructor
    · intro h
      show decodeRecords (encodeRecord (x, y) ++ encodeStream rs ++ extra) = _
      rw [List.append_assoc, decodeRecords_cons x y hx hy, ih1 h]
    · intro h8 h12
      show decodeRecords (encodeRecord (x, y) ++ encodeStream rs ++ extra) = _
      rw [List.append_assoc, decodeRecords_cons x y hx hy, ih2 h8 h12]

/-- C5 witness: concrete round trip. -/
theorem codec_record_roundtrip_witness :
    decodeRecords (encodeStream [(3, 7), (18446744073709551615, 4294967295)]) =
      .ok [(3, 7), (18446744073709551615, 4294967295)] :=
  (codec_record_roundtrip [(3, 7), (18446744073709551615, 4294967295)]
    (by decide)).2.2

/-- C6 witness: a complete record followed by 9 stray bytes (identifier
read succeeds, value read hits end-of-file) is a truncation error. -/
theorem decode_eof_behavior_witness :
    decodeRecords (encodeStream [(3, 7)] ++ [0, 0, 0, 0, 0, 0, 0, 0, 9]) =
      .error () :=
  (decode_eof_behavior [(3, 7)] (by decide)
    [0, 0, 0, 0, 0, 0, 0, 0, 9]).2 (by decide) (by decide)

/-! ### Tessellator claims C7, C8, C9, C10 -/

/-- C7: a present sample tessellated into `n ≥ 1` hexes emits one record of
value `v / n` per hex, and the emitted values sum back to `v` exactly in
the rational model (hence within any relative tolerance, in particular
`1e-5`). -/
theorem tessellation_mass_preserving (hexes : List Nat) (v : ℚ)
    (h : 1 ≤ hexes.length) :
    (∀ r ∈ scaledRecords hexes v, r.2 = v / (hexes.length : ℚ)) ∧
    ((scaledRecords hexes v).map Prod.snd).sum = v ∧
    |((scaledRecords hexes v).map Prod.snd).sum - v| ≤ (1 / 100000 : ℚ) * |v| := by
  have hn : ((hexes.length : ℚ)) ≠ 0 := Nat.cast_ne_zero.mpr (by omega)
  have hsum : ((scaledRecords hexes v).map Prod.snd).sum = v := by
    simp only [scaledRecords, List.map_map]
    have : (Prod.snd ∘ fun h => (h, v / (hexes.length : ℚ))) =
        fun _ : Nat => v / (hexes.length : ℚ) := rfl
    rw [this, List.map_const', List.sum_replicate, nsmul_eq_mul,
      mul_div_cancel₀ v hn]
  refine ⟨?_, hsum, ?_⟩
  · intro r hr
    simp only [scaledRecords, List.mem_map] at hr
    obtain ⟨a, _, rfl⟩ := hr
    rfl
  · rw [hsum, sub_self, abs_zero]
    positivity

/-- C7 witness. -/
theorem tessellation_mass_preserving_witness :
    ((scaledRecords [10, 20] 3).map Prod.snd).sum = 3 :=
  (tessellation_mass_preserving [10, 20] 3 (by decide)).2.1

/-- C8: the tessellator's ring for grid cell `(row, col)` is the closed
lower-left, lower-right, upper-right, upper-left, lower-left rectangle with
left longitude `xll + cs*col`, bottom latitude `yll + cs*(nrows-row-1)` and
width/height `cs`; the bottom latitude strictly decreases as the row index
increases (rows count from the grid's top). -/
theorem grid_ring_corners (xll yll cs : ℚ) (nrows row col : Nat)
    (hcs : 0 < cs) :
    gridRing xll yll cs nrows row col =
      [(xll + cs * (col : ℚ), yll + cs * ((nrows - row - 1 : Nat) : ℚ)),
       (xll + cs * (col : ℚ) + cs, yll + cs * ((nrows - row - 1 : Nat) : ℚ)),
       (xll + cs * (col : ℚ) + cs, yll + cs * ((nrows - row - 1 : Nat) : ℚ) + cs),
       (xll + cs * (col : ℚ), yll + cs * ((nrows - row - 1 : Nat) : ℚ) + cs),
       (xll + cs * (col : ℚ), yll + cs * ((nrows - row - 1 : Nat) : ℚ))] ∧
    (∀ row1 row2 : Nat, row1 < row2 → row2 < nrows →
      cellBottom yll cs nrows row2 < cellBottom yll cs nrows row1) := by
  refine ⟨rfl, ?_⟩
  intro row1 row2 h12 h2n
  unfold cellBottom
  have hlt : (nrows - row2 - 1) < (nrows - row1 - 1) := by omega
  have : ((nrows - row2 - 1 : Nat) : ℚ) < ((nrows - row1 - 1 : Nat) : ℚ) :=
    Nat.cast_lt.mpr hlt
  have := mul_lt_mul_of_pos_left this hcs
  linarith

/-- C8 witness. -/
theorem grid_ring_corners_witness :
    cellBottom 0 1 4 2 < cellBottom 0 1 4 1 :=
  (grid_ring_corners 0 0 1 4 1 0 (by norm_num)).2 1 2 (by decide) (by decide)

theorem mem_insSorted {x b : Nat} : ∀ {l : List Nat},
    b ∈ insSorted x l ↔ b = x ∨ b ∈ l
  | [] => by simp [insSorted]
  | y :: ys => by
    unfold insSorted
    split
    · exact List.mem_cons
    · rw [List.mem_cons, @mem_insSorted x b ys, List.mem_cons]
      tauto

theorem sorted_insSorted (x : Nat) : ∀ (l : List Nat),
    l.Sorted (· ≤ ·) → (insSorted x l).Sorted (· ≤ ·)
  | [], _ => by simp [insSorted]
  | y :: ys, h => by
    obtain ⟨hy, hys⟩ := List.sorted_cons.mp h
    unfold insSorted
    split
    · rename_i hxy
      refine List.sorted_cons.mpr ⟨?_, h⟩
      intro b hb
      rcases List.mem_cons.mp hb with rfl | hb
      · exact hxy
      · exact hxy.trans (hy b hb)
    · rename_i hxy
      refine List.sorted_cons.mpr ⟨?_, sorted_insSorted x ys hys⟩
      intro b hb
      rcases mem_insSorted.mp hb with rfl | hb
      · omega
      · exact hy b hb

theorem sorted_sortNat (l : List Nat) : (sortNat l).Sorted (· ≤ ·) := by
  induction l with
  | nil => simp [sortNat]
  | cons a l ih => exact sorted_insSorted a (sortNat l) ih

theorem dedupAdj_subset : ∀ l : List Nat, dedupAdj l ⊆ l
  | [] => by simp [dedupAdj]
  | [a] => by simp [dedupAdj]
  | a :: b :: rest => by
    have ih := dedupAdj_subset (b :: rest)
    unfold dedupAdj
    split
    · exact fun x hx => List.mem_cons_of_mem a (ih hx)
    · intro x hx
      rcases List.mem_cons.mp hx with rfl | hx
      · exact List.mem_cons_self x (b :: rest)
      · exact List.mem_cons_of_mem a (ih hx)

theorem dedupAdj_pairwise : ∀ l : List Nat,
    l.Sorted (· ≤ ·) → (dedupAdj l).Pairwise (· < ·)
  | [] => by simp [dedupAdj]
  | [a] => by simp [dedupAdj]
  | a :: b :: rest => fun h => by
    obtain ⟨ha, hs⟩ := List.sorted_cons.mp h
    have ih := dedupAdj_pairwise (b :: rest) hs
    unfold dedupAdj
    split
    · exact ih
    · rename_i hab
      refine List.pairwise_cons.mpr ⟨?_, ih⟩
      intro x hx
      have hxm : x ∈ b :: rest := dedupAdj_subset (b :: rest) hx
      have hbx : b ≤ x := by
        rcases List.mem_cons.mp hxm with rfl | hxm
        · exact le_refl x
        · exact (List.sorted_cons.mp hs).1 x hxm
      have hab' : a ≤ b := ha b (List.mem_cons_self b rest)
      omega

/-- C9: the hex-identifier list produced by the tessellator's sort+dedup
post-processing is ascending and duplicate-free, for every raw covering
query result. -/
theorem sortDedup_sorted_nodup (raw : List Nat) :
    (sortDedup raw).Sorted (· ≤ ·) ∧ (sortDedup raw).Nodup := by
  have hp : (sortDedup raw).Pairwise (· < ·) :=
    dedupAdj_pairwise (sortNat raw) (sorted_sortNat raw)
  exact ⟨hp.imp le_of_lt, hp.imp ne_of_lt⟩

/-- C10: a present sample whose covering query returns no hex cells emits
no records at all (the write loop runs zero times) and raises no error;
the sample's value is silently dropped. -/
theorem empty_tessellation_drops_value (v : ℚ) :
    scaledRecords [] v = [] ∧ encodeStream [] = [] :=
  ⟨rfl, rfl⟩

/-! ### Aggregator lemmas -/

theorem childCell_inj {b : Nat} {path : List (Fin 7)} {i j : Fin 7}
    (h : childCell b path i = childCell b path j) : i = j := by
  have := congrArg Cell.path h
  simpa [childCell] using this

theorem childCell_ne {b : Nat} {path : List (Fin 7)} {i j : Fin 7}
    (h : i ≠ j) : childCell b path i ≠ childCell b path j :=
  fun hc => h (childCell_inj hc)

theorem parent_ne_child (b : Nat) (path : List (Fin 7)) (i : Fin 7) :
    (⟨b, path⟩ : Cell) ≠ childCell b path i := by
  intro h
  have := congrArg (fun c : Cell => c.path.length) h
  simp [childCell] at this

theorem lookup_eraseCell (c q : Cell) :
    ∀ m : HexMap, lookupCell (eraseCell m c) q =
      if c = q then none else lookupCell m q
  | [] => by simp [eraseCell, lookupCell]
  | e :: rest => by
    have ih := lookup_eraseCell c q rest
    by_cases hec : e.1 = c
    · by_cases hcq : c = q
      · rw [eraseCell, if_pos hec, ih, if_pos hcq, if_pos hcq]
      · rw [eraseCell, if_pos hec, ih, if_neg hcq, if_neg hcq, lookupCell,
          if_neg (fun h : e.1 = q => hcq (by rw [← hec]; exact h))]
    · by_cases hcq : c = q
      · rw [eraseCell, if_neg hec, lookupCell,
          if_neg (fun h : e.1 = q => hec (by rw [hcq]; exact h)),
          ih, if_pos hcq, if_pos hcq]
      · rw [eraseCell, if_neg hec, lookupCell, ih, if_neg hcq, if_neg hcq,
          lookupCell]

theorem lookup_insertRaw (m : HexMap) (c : Cell) (v : ℚ) (q : Cell) :
    lookupCell (insertRaw m c v) q = if c = q then some v else lookupCell m q := by
  rw [insertRaw, lookupCell, lookup_eraseCell]
  by_cases hcq : c = q
  · rw [if_pos hcq, if_pos hcq]
  · rw [if_neg hcq, if_neg hcq, if_neg hcq]

theorem eraseCell_of_lookup_none (c : Cell) :
    ∀ m : HexMap, lookupCell m c = none → eraseCell m c = m
  | [] => fun _ => rfl
  | e :: rest => fun h => by
    rw [lookupCell] at h
    by_cases hec : e.1 = c
    · rw [if_pos hec] at h; cases h
    · rw [if_neg hec] at h
      rw [eraseCell, if_neg hec, eraseCell_of_lookup_none c rest h]

theorem mem_eraseCell {e : Cell × ℚ} {c : Cell} :
    ∀ {m : HexMap}, e ∈ eraseCell m c → e ∈ m
  | [], h => h
  | e2 :: rest, h => by
    rw [eraseCell] at h
    by_cases hec : e2.1 = c
    · rw [if_pos hec] at h
      exact List.mem_cons_of_mem e2 (mem_eraseCell h)
    · rw [if_neg hec] at h
      rcases List.mem_cons.mp h with rfl | h
      · exact List.mem_cons_self e rest
      · exact List.mem_cons_of_mem e2 (mem_eraseCell h)

theorem mem_eraseChildren {e : Cell × ℚ} {m : HexMap} {b : Nat}
    {path : List (Fin 7)} (h : e ∈ eraseChildren m b path) : e ∈ m :=
  (List.mem_filter.mp h).1

theorem compactF_none_of_lt {t : Nat} {c : Cell} {ch : Fin 7 → Option ℚ}
    (h : c.res < t) : compactF t c ch = none := by
  rw [compactF, if_pos h]

theorem compactF_none_missing {t : Nat} {c : Cell} {ch : Fin 7 → Option ℚ}
    (i : Fin 7) (h : ch i = none) : compactF t c ch = none := by
  rw [compactF]
  split
  · rfl
  · rcases h0 : ch 0 with _ | v0
    · rfl
    rcases h1 : ch 1 with _ | v1
    · rfl
    rcases h2 : ch 2 with _ | v2
    · rfl
    rcases h3 : ch 3 with _ | v3
    · rfl
    rcases h4 : ch 4 with _ | v4
    · rfl
    rcases h5 : ch 5 with _ | v5
    · rfl
    rcases h6 : ch 6 with _ | v6
    · rfl
    exfalso
    fin_cases i <;> simp_all

theorem compactF_merge {t : Nat} {c : Cell} {ch : Fin 7 → Option ℚ}
    (hres : t ≤ c.res) (f : Fin 7 → ℚ) (h : ∀ i, ch i = some (f i)) :
    compactF t c ch = some (f 0 + f 1 + f 2 + f 3 + f 4 + f 5 + f 6) := by
  rw [compactF, if_neg (by omega), h 0, h 1, h 2, h 3, h 4, h 5, h 6]

theorem compactF_some_inv {t : Nat} {c : Cell} {ch : Fin 7 → Option ℚ} {s : ℚ}
    (h : compactF t c ch = some s) :
    t ≤ c.res ∧ ∃ f : Fin 7 → ℚ, (∀ i, ch i = some (f i)) ∧
      s = f 0 + f 1 + f 2 + f 3 + f 4 + f 5 + f 6 := by
  have hres : ¬ c.res < t := by
    intro hlt
    rw [compactF_none_of_lt hlt] at h
    cases h
  refine ⟨by omega, ?_⟩
  rcases h0 : ch 0 with _ | v0
  · rw [compactF_none_missing 0 h0] at h; cases h
  rcases h1 : ch 1 with _ | v1
  · rw [compactF_none_missing 1 h1] at h; cases h
  rcases h2 : ch 2 with _ | v2
  · rw [compactF_none_missing 2 h2] at h; cases h
  rcases h3 : ch 3 with _ | v3
  · rw [compactF_none_missing 3 h3] at h; cases h
  rcases h4 : ch 4 with _ | v4
  · rw [compactF_none_missing 4 h4] at h; cases h
  rcases h5 : ch 5 with _ | v5
  · rw [compactF_none_missing 5 h5] at h; cases h
  rcases h6 : ch 6 with _ | v6
  · rw [compactF_none_missing 6 h6] at h; cases h
  refine ⟨fun i => [v0, v1, v2, v3, v4, v5, v6].get i, ?_, ?_⟩
  · intro i
    fin_cases i <;> assumption
  · rw [compactF, if_neg hres, h0, h1, h2, h3, h4, h5, h6] at h
    exact (Option.some.inj h).symm

theorem compactUp_singleton (t b : Nat) :
    ∀ (path : List (Fin 7)) (w : ℚ),
      compactUp t b path [(⟨b, path⟩, w)] = [(⟨b, path⟩, w)]
  | [], _ => rfl
  | d :: rest, w => by
    rw [compactUp]
    have hmiss : ∃ i : Fin 7,
        lookupCell [((⟨b, d :: rest⟩ : Cell), w)] (childCell b rest i) = none := by
      by_cases hd : d = 0
      · refine ⟨1, ?_⟩
        rw [lookupCell, if_neg, lookupCell]
        intro hc
        have := congrArg Cell.path hc
        simp [childCell, hd] at this
      · refine ⟨0, ?_⟩
        rw [lookupCell, if_neg, lookupCell]
        intro hc
        have := congrArg Cell.path hc
        simp [childCell] at this
        exact hd this
    obtain ⟨i, hi⟩ := hmiss
    rw [compactF_none_missing i hi]

/-- C3: two records at the same cell, in whatever order they arrive,
overwrite: the final index holds only the later value, never the sum. -/
theorem same_cell_overwrites (t : Nat) (c : Cell) (v1 v2 : ℚ) :
    runCombine t [(c, v1), (c, v2)] = [(c, v2)] := by
  have h1 : insertRecord t [] c v1 = [(c, v1)] := by
    show compactUp t c.base c.path [(c, v1)] = [(c, v1)]
    exact compactUp_singleton t c.base c.path v1
  have herase : eraseCell [(c, v1)] c = [] := by
    rw [eraseCell, if_pos rfl]
    rfl
  have h2 : insertRecord t [(c, v1)] c v2 = [(c, v2)] := by
    show compactUp t c.base c.path (insertRaw [(c, v1)] c v2) = [(c, v2)]
    rw [insertRaw, herase]
    exact compactUp_singleton t c.base c.path v2
  show insertRecord t (insertRecord t [] c v1) c v2 = [(c, v2)]
  rw [h1, h2]

theorem compactUp_res (t b : Nat) :
    ∀ (path : List (Fin 7)) (m : HexMap), (∀ e ∈ m, t ≤ e.1.res) →
      ∀ e ∈ compactUp t b path m, t ≤ e.1.res
  | [], _, hm => hm
  | d :: rest, m, hm => by
    rw [compactUp]
    rcases hc : compactF t ⟨b, rest⟩ (fun i => lookupCell m (childCell b rest i))
      with _ | s
    · exact hm
    · refine compactUp_res t b rest _ ?_
      intro e he
      rcases List.mem_cons.mp he with rfl | he
      · exact (compactF_some_inv hc).1
      · exact hm e (mem_eraseChildren (mem_eraseCell he))

/-- C2: the compactor never merges a candidate parent below the target
resolution, and consequently — for input records at resolution at least the
target, as the pipeline produces — no cell of the final index is coarser
than the target resolution. -/
theorem no_merge_below_target (t : Nat) :
    (∀ (c : Cell) (ch : Fin 7 → Option ℚ), c.res < t → compactF t c ch = none) ∧
    (∀ l : List (Cell × ℚ), (∀ r ∈ l, t ≤ r.1.res) →
      ∀ e ∈ runCombine t l, t ≤ e.1.res) := by
  constructor
  · exact fun c ch h => compactF_none_of_lt h
  · have main : ∀ (l : List (Cell × ℚ)) (m : HexMap), (∀ e ∈ m, t ≤ e.1.res) →
        (∀ r ∈ l, t ≤ r.1.res) →
        ∀ e ∈ l.foldl (fun m r => insertRecord t m r.1 r.2) m, t ≤ e.1.res := by
      intro l
      induction l with
      | nil => exact fun m hm _ => hm
      | cons r l ih =>
        intro m hm hl
        refine ih _ ?_ (fun q hq => hl q (List.mem_cons_of_mem r hq))
        refine compactUp_res t r.1.base r.1.path _ ?_
        intro e he
        rcases List.mem_cons.mp he with rfl | he
        · exact hl r (List.mem_cons_self r l)
        · exact hm e (mem_eraseCell he)
    exact fun l hl => main l [] (by intro e he; cases he) hl

theorem lookup_none_of_ne (q : Cell) :
    ∀ m : HexMap, (∀ e ∈ m, e.1 ≠ q) → lookupCell m q = none
  | [], _ => rfl
  | e :: rest, hm => by
    rw [lookupCell, if_neg (hm e (List.mem_cons_self e rest)),
      lookup_none_of_ne q rest (fun x hx => hm x (List.mem_cons_of_mem e hx))]

theorem lookup_children_map_none (b : Nat) (path : List (Fin 7)) (v : ℚ)
    (q : Fin 7) :
    ∀ ds : List (Fin 7), q ∉ ds →
      lookupCell (ds.map (fun d => (childCell b path d, v)))
        (childCell b path q) = none
  | [], _ => rfl
  | a :: ds, h => by
    have haq : a ≠ q := fun hh => h (hh ▸ List.mem_cons_self q ds)
    rw [List.map_cons, lookupCell, if_neg (childCell_ne haq),
      lookup_children_map_none b path v q ds
        (fun hm => h (List.mem_cons_of_mem a hm))]

theorem lookup_children_map_mem (b : Nat) (path : List (Fin 7)) (v : ℚ)
    (q : Fin 7) :
    ∀ ds : List (Fin 7), q ∈ ds →
      lookupCell (ds.map (fun d => (childCell b path d, v)))
        (childCell b path q) = some v
  | [], h => absurd h (List.not_mem_nil q)
  | a :: ds, h => by
    rw [List.map_cons, lookupCell]
    by_cases haq : a = q
    · rw [if_pos (by rw [haq])]
    · have hm : q ∈ ds :=
        (List.mem_cons.mp h).resolve_left (fun hh => haq hh.symm)
      rw [if_neg (childCell_ne haq), lookup_children_map_mem b path v q ds hm]

/-- Inserting a fresh child leaf while a sibling is still missing stores the
leaf and merges nothing. -/
theorem insertRecord_fresh_no_merge (t b : Nat) (path : List (Fin 7))
    (d : Fin 7) (v : ℚ) (m : HexMap)
    (hd : lookupCell m (childCell b path d) = none)
    (i : Fin 7) (hid : i ≠ d)
    (hi : lookupCell m (childCell b path i) = none) :
    insertRecord t m (childCell b path d) v = (childCell b path d, v) :: m := by
  show compactUp t b (d :: path)
      ((childCell b path d, v) :: eraseCell m (childCell b path d)) = _
  rw [eraseCell_of_lookup_none _ m hd, compactUp]
  have hch : lookupCell ((childCell b path d, v) :: m) (childCell b path i) =
      none := by
    rw [lookupCell, if_neg (childCell_ne (Ne.symm hid)), hi]
  rw [compactF_none_missing i hch]

/-- C1: with target `t ≤ r` and a complete group of 7 siblings at
resolution `r + 1` each holding `v`, inserting all 7 leaves exactly one
entry, at the parent, holding `7v` (children removed); inserting only 6 of
them leaves the 6 leaves and nothing at the parent. -/
theorem compaction_completeness (t b : Nat) (path : List (Fin 7)) (v : ℚ)
    (h : t ≤ path.length) :
    runCombine t [(childCell b path 0, v), (childCell b path 1, v),
        (childCell b path 2, v), (childCell b path 3, v),
        (childCell b path 4, v), (childCell b path 5, v),
        (childCell b path 6, v)] = [(⟨b, path⟩, 7 * v)] ∧
    runCombine t [(childCell b path 0, v), (childCell b path 1, v),
        (childCell b path 2, v), (childCell b path 3, v),
        (childCell b path 4, v), (childCell b path 5, v)] =
      [(childCell b path 5, v), (childCell b path 4, v),
       (childCell b path 3, v), (childCell b path 2, v),
       (childCell b path 1, v), (childCell b path 0, v)] ∧
    lookupCell (runCombine t [(childCell b path 0, v), (childCell b path 1, v),
        (childCell b path 2, v), (childCell b path 3, v),
        (childCell b path 4, v), (childCell b path 5, v)]) ⟨b, path⟩ = none := by
  have s1 : insertRecord t [] (childCell b path 0) v =
      [(childCell b path 0, v)] :=
    insertRecord_fresh_no_merge t b path 0 v [] rfl 6 (by decide) rfl
  have s2 : insertRecord t [(childCell b path 0, v)] (childCell b path 1) v =
      [(childCell b path 1, v), (childCell b path 0, v)] :=
    insertRecord_fresh_no_merge t b path 1 v _
      (lookup_children_map_none b path v 1 [0] (by decide)) 6 (by decide)
      (lookup_children_map_none b path v 6 [0] (by decide))
  have s3 : insertRecord t [(childCell b path 1, v), (childCell b path 0, v)]
      (childCell b path 2) v =
      [(childCell b path 2, v), (childCell b path 1, v),
       (childCell b path 0, v)] :=
    insertRecord_fresh_no_merge t b path 2 v _
      (lookup_children_map_none b path v 2 [1, 0] (by decide)) 6 (by decide)
      (lookup_children_map_none b path v 6 [1, 0] (by decide))
  have s4 : insertRecord t [(childCell b path 2, v), (childCell b path 1, v),
      (childCell b path 0, v)] (childCell b path 3) v =
      [(childCell b path 3, v), (childCell b path 2, v),
       (childCell b path 1, v), (childCell b path 0, v)] :=
    insertRecord_fresh_no_merge t b path 3 v _
      (lookup_children_map_none b path v 3 [2, 1, 0] (by decide)) 6 (by decide)
      (lookup_children_map_none b path v 6 [2, 1, 0] (by decide))
  have s5 : insertRecord t [(childCell b path 3, v), (childCell b path 2, v),
      (childCell b path 1, v), (childCell b path 0, v)] (childCell b path 4) v =
      [(childCell b path 4, v), (childCell b path 3, v),
       (childCell b path 2, v), (childCell b path 1, v),
       (childCell b path 0, v)] :=
    insertRecord_fresh_no_merge t b path 4 v _
      (lookup_children_map_none b path v 4 [3, 2, 1, 0] (by decide)) 6 (by decide)
      (lookup_children_map_none b path v 6 [3, 2, 1, 0] (by decide))
  have s6 : insertRecord t [(childCell b path 4, v), (childCell b path 3, v),
      (childCell b path 2, v), (childCell b path 1, v),
      (childCell b path 0, v)] (childCell b path 5) v =
      [(childCell b path 5, v), (childCell b path 4, v),
       (childCell b path 3, v), (childCell b path 2, v),
       (childCell b path 1, v), (childCell b path 0, v)] :=
    insertRecord_fresh_no_merge t b path 5 v _
      (lookup_children_map_none b path v 5 [4, 3, 2, 1, 0] (by decide)) 6
      (by decide)
      (lookup_children_map_none b path v 6 [4, 3, 2, 1, 0] (by decide))
  have run6 : runCombine t [(childCell b path 0, v), (childCell b path 1, v),
      (childCell b path 2, v), (childCell b path 3, v),
      (childCell b path 4, v), (childCell b path 5, v)] =
      [(childCell b path 5, v), (childCell b path 4, v),
       (childCell b path 3, v), (childCell b path 2, v),
       (childCell b path 1, v), (childCell b path 0, v)] := by
    show insertRecord t (insertRecord t (insertRecord t (insertRecord t
      (insertRecord t (insertRecord t [] (childCell b path 0) v)
        (childCell b path 1) v) (childCell b path 2) v) (childCell b path 3) v)
      (childCell b path 4) v) (childCell b path 5) v = _
    rw [s1, s2, s3, s4, s5, s6]
  have merge7 : insertRecord t [(childCell b path 5, v), (childCell b path 4, v),
      (childCell b path 3, v), (childCell b path 2, v),
      (childCell b path 1, v), (childCell b path 0, v)] (childCell b path 6) v =
      [(⟨b, path⟩, v + v + v + v + v + v + v)] := by
    show compactUp t b ((6 : Fin 7) :: path)
      ((childCell b path 6, v) :: eraseCell
        [(childCell b path 5, v), (childCell b path 4, v),
         (childCell b path 3, v), (childCell b path 2, v),
         (childCell b path 1, v), (childCell b path 0, v)]
        (childCell b path 6)) = _
    rw [eraseCell_of_lookup_none (childCell b path 6)
      [(childCell b path 5, v), (childCell b path 4, v),
       (childCell b path 3, v), (childCell b path 2, v),
       (childCell b path 1, v), (childCell b path 0, v)]
      (lookup_children_map_none b path v 6 [5, 4, 3, 2, 1, 0] (by decide))]
    rw [compactUp]
    have hall : ∀ i : Fin 7,
        lookupCell ((childCell b path 6, v) ::
          [(childCell b path 5, v), (childCell b path 4, v),
           (childCell b path 3, v), (childCell b path 2, v),
           (childCell b path 1, v), (childCell b path 0, v)])
          (childCell b path i) = some ((fun _ : Fin 7 => v) i) := by
      intro i
      by_cases h6 : i = 6
      · rw [h6, lookupCell, if_pos rfl]
      · rw [lookupCell, if_neg (childCell_ne (fun hh => h6 hh.symm))]
        exact lookup_children_map_mem b path v i [5, 4, 3, 2, 1, 0]
          (by fin_cases i <;> simp_all)
    rw [compactF_merge (show t ≤ (⟨b, path⟩ : Cell).res from h)
      (fun _ : Fin 7 => v) hall]
    have herase : eraseChildren ((childCell b path 6, v) ::
        [(childCell b path 5, v), (childCell b path 4, v),
         (childCell b path 3, v), (childCell b path 2, v),
         (childCell b path 1, v), (childCell b path 0, v)]) b path = [] := by
      simp [eraseChildren, isChildOf, childCell, List.filter]
    rw [herase]
    exact compactUp_singleton t b path _
  refine ⟨?_, run6, ?_⟩
  · show insertRecord t (insertRecord t (insertRecord t (insertRecord t
      (insertRecord t (insertRecord t (insertRecord t [] (childCell b path 0) v)
        (childCell b path 1) v) (childCell b path 2) v) (childCell b path 3) v)
      (childCell b path 4) v) (childCell b path 5) v) (childCell b path 6) v = _
    rw [s1, s2, s3, s4, s5, s6, merge7]
    have : v + v + v + v + v + v + v = 7 * v := by ring
    rw [this]
  · rw [run6]
    refine lookup_none_of_ne _ _ ?_
    intro e he
    simp only [List.mem_cons, List.not_mem_nil, or_false] at he
    rcases he with rfl | rfl | rfl | rfl | rfl | rfl <;>
      exact Ne.symm (parent_ne_child b path _)

/-- C1 witness. -/
theorem compaction_completeness_witness :
    runCombine 0 [(childCell 0 [] 0, 1), (childCell 0 [] 1, 1),
        (childCell 0 [] 2, 1), (childCell 0 [] 3, 1), (childCell 0 [] 4, 1),
        (childCell 0 [] 5, 1), (childCell 0 [] 6, 1)] =
      [((⟨0, []⟩ : Cell), (7 : ℚ) * 1)] ∧
    lookupCell (runCombine 0 [(childCell 0 [] 0, 1), (childCell 0 [] 1, 1),
        (childCell 0 [] 2, 1), (childCell 0 [] 3, 1), (childCell 0 [] 4, 1),
        (childCell 0 [] 5, 1)]) ⟨0, []⟩ = none :=
  ⟨(compaction_completeness 0 0 [] 1 (by decide)).1,
   (compaction_completeness 0 0 [] 1 (by decide)).2.2⟩

/-! ### Order independence machinery (C4)

The final index of the combine aggregation is characterized by a canonical
covering relation over the (unordered) record set: a cell carries a value
exactly when it is a record leaf or a complete merge of covered children at
or above the target resolution, and it is stored exactly when its parent is
not itself mergeable.  This characterization only depends on record
membership, from which order independence follows for admissible record
sets (pairwise distinct cells, no two in an ancestor/descendant relation —
as the tessellation stage produces). -/

/-- A record list is admissible when no two records sit on cells related by
ancestry (in particular all cells are distinct). -/
def AdmRecords (l : List (Cell × ℚ)) : Prop :=
  l.Pairwise (fun r s => ¬ r.1.anc s.1 ∧ ¬ s.1.anc r.1)

instance (l : List (Cell × ℚ)) : Decidable (AdmRecords l) := by
  unfold AdmRecords
  infer_instance

/-- A cell carries a value over a record set: it is a record leaf, or all
7 of its children carry values and its resolution is at least the target,
in which case it carries the compactor's left-associated sum. -/
inductive Covers (t : Nat) (S : List (Cell × ℚ)) : Cell → ℚ → Prop
  | leaf : ∀ {c : Cell} {v : ℚ}, (c, v) ∈ S → Covers t S c v
  | merge : ∀ {b : Nat} {path : List (Fin 7)} (f : Fin 7 → ℚ),
      t ≤ path.length →
      (∀ d : Fin 7, Covers t S (childCell b path d) (f d)) →
      Covers t S ⟨b, path⟩ (f 0 + f 1 + f 2 + f 3 + f 4 + f 5 + f 6)

/-- A candidate parent is mergeable when it is at or above the target
resolution and all 7 children carry values. -/
def Mergeable (t : Nat) (S : List (Cell × ℚ)) (p : Cell) : Prop :=
  t ≤ p.res ∧ ∀ d : Fin 7, ∃ w, Covers t S (childCell p.base p.path d) w

/-- A cell is top (stored rather than merged away) when its parent, if any,
is not mergeable. -/
def TopCell (t : Nat) (S : List (Cell × ℚ)) (c : Cell) : Prop :=
  ∀ (d : Fin 7) (rest : List (Fin 7)), c.path = d :: rest →
    ¬ Mergeable t S ⟨c.base, rest⟩

theorem anc_antisymm {a c : Cell} (h1 : a.anc c) (h2 : c.anc a) : a = c :=
  anc_eq_of_length h1 h2.2.1

theorem anc_strict_length {a c : Cell} (h : a.anc c) (hne : a ≠ c) :
    a.path.length < c.path.length := by
  rcases Nat.lt_or_ge a.path.length c.path.length with hlt | hge
  · exact hlt
  · exact absurd (anc_eq_of_length h hge) hne

theorem anc_unique_at_length {a a2 c : Cell} (h1 : a.anc c) (h2 : a2.anc c)
    (hl : a.path.length = a2.path.length) : a = a2 :=
  anc_eq_of_length (anc_of_anc_anc h1 h2 (le_of_eq hl)) (le_of_eq hl.symm)

theorem anc_cons_parent {b : Nat} {d : Fin 7} {rest : List (Fin 7)} {c : Cell}
    (h : Cell.anc ⟨b, d :: rest⟩ c) : Cell.anc ⟨b, rest⟩ c := by
  rw [anc_iff_exists] at h ⊢
  obtain ⟨hb, pre, hpre⟩ := h
  exact ⟨hb, pre ++ [d], by rw [hpre, List.append_assoc]; rfl⟩

theorem not_cons_anc_tail (b b2 : Nat) (d : Fin 7) (rest : List (Fin 7)) :
    ¬ Cell.anc ⟨b, d :: rest⟩ ⟨b2, rest⟩ := by
  rintro ⟨-, hle, -⟩
  simp only [List.length_cons] at hle
  omega

theorem anc_level_succ {p a : Cell} (h : p.anc a)
    (hl : a.path.length = p.path.length + 1) :
    ∃ j : Fin 7, a = ⟨p.base, j :: p.path⟩ := by
  rw [anc_iff_exists] at h
  obtain ⟨hb, pre, hpre⟩ := h
  have hlen : pre.length = 1 := by
    have := congrArg List.length hpre
    simp only [List.length_append] at this
    omega
  rcases pre with _ | ⟨j, pre2⟩
  · simp at hlen
  · rcases pre2 with _ | _
    · refine ⟨j, ?_⟩
      cases a
      simp_all
    · simp at hlen

theorem exists_mid {p q : Cell} (h : p.anc q)
    (hl : p.path.length + 1 ≤ q.path.length) :
    ∃ j : Fin 7, Cell.anc ⟨p.base, j :: p.path⟩ q := by
  rw [anc_iff_exists] at h
  obtain ⟨hb, pre, hpre⟩ := h
  have hpre_ne : pre ≠ [] := by
    intro hnil
    rw [hnil, List.nil_append] at hpre
    have := congrArg List.length hpre
    omega
  rcases List.eq_nil_or_concat pre with rfl | ⟨pre2, j, rfl⟩
  · exact absurd rfl hpre_ne
  · refine ⟨j, ?_⟩
    rw [anc_iff_exists]
    refine ⟨hb, pre2, ?_⟩
    rw [hpre, List.concat_eq_append, List.append_assoc]
    rfl

theorem anc_of_anc_cons_le {a : Cell} {b : Nat} {k : Fin 7}
    {restq : List (Fin 7)} (h : a.anc ⟨b, k :: restq⟩)
    (hl : a.path.length ≤ restq.length) : a.anc ⟨b, restq⟩ := by
  obtain ⟨hb, hle, hdrop⟩ := h
  refine ⟨hb, hl, ?_⟩
  have hdrop2 : a.path =
      List.drop (restq.length + 1 - a.path.length) (k :: restq) := by
    simpa using hdrop
  have harith : restq.length + 1 - a.path.length =
      (restq.length - a.path.length) + 1 := by omega
  rw [harith, List.drop_succ_cons] at hdrop2
  exact hdrop2

theorem covers_mono {t : Nat} {S S2 : List (Cell × ℚ)}
    (hsub : ∀ r ∈ S, r ∈ S2) {c : Cell} {v : ℚ} (h : Covers t S c v) :
    Covers t S2 c v := by
  induction h with
  | leaf h => exact Covers.leaf (hsub _ h)
  | merge f hres hch ih => exact Covers.merge f hres ih

theorem covers_anc_leaf {t : Nat} {S : List (Cell × ℚ)} {c : Cell} {v : ℚ}
    (h : Covers t S c v) : ∃ r ∈ S, c.anc r.1 := by
  induction h with
  | leaf h => exact ⟨_, h, anc_refl _⟩
  | merge f hres hch ih =>
    obtain ⟨r, hr, hanc⟩ := ih 0
    exact ⟨r, hr, anc_trans (anc_child _ _ 0) hanc⟩

theorem adm_sublist {S : List (Cell × ℚ)} {r0 : Cell × ℚ}
    (h : AdmRecords (S ++ [r0])) : AdmRecords S :=
  h.sublist (List.sublist_append_left S [r0])

theorem adm_append_rel {S : List (Cell × ℚ)} {r0 : Cell × ℚ}
    (h : AdmRecords (S ++ [r0])) {s : Cell × ℚ} (hs : s ∈ S) :
    ¬ s.1.anc r0.1 ∧ ¬ r0.1.anc s.1 :=
  (List.pairwise_append.mp h).2.2 s hs r0 (List.mem_cons_self r0 [])

theorem adm_mem_anc_eq {S : List (Cell × ℚ)} (hadm : AdmRecords S)
    {r1 r2 : Cell × ℚ} (h1 : r1 ∈ S) (h2 : r2 ∈ S) (h : r1.1.anc r2.1) :
    r1 = r2 := by
  have hsymm : Symmetric
      (fun r s : Cell × ℚ => ¬ r.1.anc s.1 ∧ ¬ s.1.anc r.1) :=
    fun _ _ hxy => ⟨hxy.2, hxy.1⟩
  by_contra hne
  exact (List.Pairwise.forall hsymm hadm h1 h2 hne).1 h

theorem covers_unique {t : Nat} {S : List (Cell × ℚ)} (hadm : AdmRecords S)
    {c : Cell} {v : ℚ} (h1 : Covers t S c v) :
    ∀ {w : ℚ}, Covers t S c w → v = w := by
  induction h1 with
  | leaf h =>
    rename_i c v
    intro w h2
    cases h2 with
    | leaf h2 =>
      have := adm_mem_anc_eq hadm h h2 (anc_refl c)
      exact (Prod.mk.injEq _ _ _ _).mp this |>.2
    | merge g hres hch =>
      exfalso
      rename_i b path
      obtain ⟨r, hr, hanc⟩ := covers_anc_leaf (hch 0)
      have hanc2 : Cell.anc ⟨b, path⟩ r.1 := anc_trans (anc_child b path 0) hanc
      have heq := adm_mem_anc_eq hadm h hr hanc2
      have hr1 : r.1 = (⟨b, path⟩ : Cell) := by rw [← heq]
      rw [hr1] at hanc
      have hle : (childCell b path 0).path.length ≤ path.length := hanc.2.1
      simp [childCell] at hle
  | merge f hres hch ih =>
    rename_i b path
    intro w h2
    cases h2 with
    | leaf h2 =>
      exfalso
      obtain ⟨r, hr, hanc⟩ := covers_anc_leaf (hch 0)
      have hanc2 : Cell.anc ⟨b, path⟩ r.1 := anc_trans (anc_child b path 0) hanc
      have heq := adm_mem_anc_eq hadm h2 hr hanc2
      have hr1 : r.1 = (⟨b, path⟩ : Cell) := by rw [← heq]
      rw [hr1] at hanc
      have hle : (childCell b path 0).path.length ≤ path.length := hanc.2.1
      simp [childCell] at hle
    | merge g hres2 hch2 =>
      have hfg : ∀ d, f d = g d := fun d => ih d (hch2 d)
      rw [hfg 0, hfg 1, hfg 2, hfg 3, hfg 4, hfg 5, hfg 6]

theorem covers_drop_new {t : Nat} {S : List (Cell × ℚ)} {c0 : Cell} {v0 : ℚ}
    {q : Cell} {w : ℚ} (h : Covers t (S ++ [(c0, v0)]) q w)
    (hq : ¬ q.anc c0) : Covers t S q w := by
  induction h with
  | leaf h =>
    rename_i c v
    rcases List.mem_append.mp h with h | h
    · exact Covers.leaf h
    · rcases List.mem_cons.mp h with heq | h
      · exfalso
        have hcc : c = c0 := congrArg Prod.fst heq
        subst hcc
        exact hq (anc_refl c)
      · cases h
  | merge f hres hch ih =>
    refine Covers.merge f hres (fun d => ih d ?_)
    intro hda
    exact hq (anc_trans (anc_child _ _ d) hda)

theorem not_covers_anc_new {t : Nat} {S : List (Cell × ℚ)} {c0 : Cell}
    {v0 : ℚ} (hadm : AdmRecords (S ++ [(c0, v0)])) {a : Cell} {w : ℚ}
    (h : Covers t S a w) (ha : a.anc c0) : False := by
  induction h with
  | leaf h => exact (adm_append_rel hadm h).1 ha
  | merge f hres hch ih =>
    rename_i b path
    have hle2 : path.length ≤ c0.path.length := ha.2.1
    by_cases hlen : path.length = c0.path.length
    · -- the merged cell is c0 itself; any child has a record leaf strictly
      -- below c0, contradicting admissibility
      have hac : (⟨b, path⟩ : Cell) = c0 :=
        anc_eq_of_length ha (le_of_eq hlen.symm)
      obtain ⟨r, hr, hanc⟩ := covers_anc_leaf (hch 0)
      have hc0r : c0.anc r.1 :=
        anc_trans (hac ▸ anc_child b path 0) hanc
      exact (adm_append_rel hadm hr).2 hc0r
    · obtain ⟨j, hj⟩ := exists_mid ha
        (by show path.length + 1 ≤ c0.path.length; omega)
      exact ih j hj

theorem not_top_of_desc {t : Nat} {S : List (Cell × ℚ)} (hadm : AdmRecords S)
    {x : Cell} {vx : ℚ} (hx : Covers t S x vx) :
    ∀ {q : Cell} {w : ℚ}, x.anc q → q ≠ x → Covers t S q w →
      ¬ TopCell t S q := by
  induction hx with
  | leaf h =>
    rename_i x vx
    intro q w hanc hne hq _
    obtain ⟨r, hr, hqr⟩ := covers_anc_leaf hq
    have hxr : x.anc r.1 := anc_trans hanc hqr
    have heq := adm_mem_anc_eq hadm h hr hxr
    have hr1 : r.1 = x := by rw [← heq]
    rw [hr1] at hqr
    exact hne (anc_antisymm hqr hanc)
  | merge f hres hch ih =>
    rename_i b path
    intro q w hanc hne hq htop
    have hlen : path.length < q.path.length :=
      anc_strict_length hanc (fun hh => hne hh.symm)
    by_cases hq1 : q.path.length = path.length + 1
    · obtain ⟨j, hj⟩ := anc_level_succ hanc hq1
      subst hj
      exact htop j path rfl ⟨hres, fun d => ⟨f d, hch d⟩⟩
    · obtain ⟨j, hj⟩ := exists_mid hanc
        (by show path.length + 1 ≤ q.path.length; omega)
      have hqc : q ≠ childCell b path j := by
        intro hh
        rw [hh] at hq1
        simp [childCell] at hq1
      exact ih j hj hqc hq htop

theorem not_covers_chain {t : Nat} {S : List (Cell × ℚ)} {c0 : Cell} {v0 : ℚ}
    (hadm : AdmRecords (S ++ [(c0, v0)])) {p : Cell} (hpc : p.anc c0)
    (hxc : p.path.length < c0.path.length)
    (hp : ∀ w, ¬ Covers t (S ++ [(c0, v0)]) p w) :
    ∀ (k : Nat) (a : Cell), a.anc c0 → a.path.length + k = p.path.length →
      ∀ w, ¬ Covers t (S ++ [(c0, v0)]) a w := by
  intro k
  induction k with
  | zero =>
    intro a ha hl w
    have : a = p := anc_unique_at_length ha hpc (by omega)
    rw [this]
    exact hp w
  | succ k ih =>
    intro a ha hl w hcov
    cases hcov with
    | leaf h =>
      rcases List.mem_append.mp h with h | h
      · exact (adm_append_rel hadm h).1 ha
      · rcases List.mem_cons.mp h with heq | h
        · have : a = c0 := congrArg Prod.fst heq
          rw [this] at hl
          have := hpc.2.1
          omega
        · cases h
    | merge f hres hch =>
      rename_i b path
      have hl2 : path.length + (k + 1) = p.path.length := hl
      have hpc2 : p.path.length ≤ c0.path.length := hpc.2.1
      obtain ⟨j, hj⟩ := exists_mid ha
        (by show path.length + 1 ≤ c0.path.length; omega)
      have hj2 : Cell.anc ⟨b, j :: path⟩ c0 := hj
      refine ih ⟨b, j :: path⟩ hj2 ?_ (f j) (hch j)
      show (j :: path).length + k = p.path.length
      simp only [List.length_cons]
      omega

theorem not_covers_nil {t : Nat} {q : Cell} {w : ℚ} (h : Covers t [] q w) :
    False := by
  induction h with
  | leaf h => exact absurd h (List.not_mem_nil _)
  | merge f hres hch ih => exact ih 0

theorem compactF_none_inv {t : Nat} {c : Cell} {ch : Fin 7 → Option ℚ}
    (h : compactF t c ch = none) : c.res < t ∨ ∃ i : Fin 7, ch i = none := by
  by_cases hres : c.res < t
  · exact Or.inl hres
  rcases h0 : ch 0 with _ | v0
  · exact Or.inr ⟨0, h0⟩
  rcases h1 : ch 1 with _ | v1
  · exact Or.inr ⟨1, h1⟩
  rcases h2 : ch 2 with _ | v2
  · exact Or.inr ⟨2, h2⟩
  rcases h3 : ch 3 with _ | v3
  · exact Or.inr ⟨3, h3⟩
  rcases h4 : ch 4 with _ | v4
  · exact Or.inr ⟨4, h4⟩
  rcases h5 : ch 5 with _ | v5
  · exact Or.inr ⟨5, h5⟩
  rcases h6 : ch 6 with _ | v6
  · exact Or.inr ⟨6, h6⟩
  exfalso
  have hmerge := compactF_merge (show t ≤ c.res by omega)
    (fun i => [v0, v1, v2, v3, v4, v5, v6].get i)
    (fun i => by fin_cases i <;> assumption)
  rw [hmerge] at h
  cases h

theorem isChildOf_child (b : Nat) (path : List (Fin 7)) (d : Fin 7) :
    isChildOf (childCell b path d) b path = true := by
  simp [isChildOf, childCell]

theorem isChildOf_exists {c : Cell} {b : Nat} {path : List (Fin 7)}
    (h : isChildOf c b path = true) : ∃ d : Fin 7, c = childCell b path d := by
  obtain ⟨base, cpath⟩ := c
  rcases cpath with _ | ⟨d, rest⟩
  · simp [isChildOf] at h
  · simp [isChildOf] at h
    exact ⟨d, by simp [childCell, h.1, h.2]⟩

theorem lookup_eraseChildren_child (b : Nat) (path : List (Fin 7)) (d : Fin 7) :
    ∀ m : HexMap, lookupCell (eraseChildren m b path) (childCell b path d) = none
  | [] => rfl
  | e :: rest => by
    rw [eraseChildren, List.filter]
    rcases hcase : isChildOf e.1 b path with _ | _
    · simp only [Bool.not_false]
      rw [lookupCell]
      rw [if_neg (fun hh : e.1 = childCell b path d => by
        rw [hh, isChildOf_child] at hcase; cases hcase)]
      exact lookup_eraseChildren_child b path d rest
    · simp only [Bool.not_true]
      exact lookup_eraseChildren_child b path d rest

theorem lookup_eraseChildren_other {q : Cell} {b : Nat} {path : List (Fin 7)}
    (hq : ∀ d : Fin 7, q ≠ childCell b path d) :
    ∀ m : HexMap, lookupCell (eraseChildren m b path) q = lookupCell m q
  | [] => rfl
  | e :: rest => by
    rw [eraseChildren, List.filter]
    rcases hcase : isChildOf e.1 b path with _ | _
    · simp only [Bool.not_false]
      rw [lookupCell, lookupCell]
      by_cases heq : e.1 = q
      · rw [if_pos heq, if_pos heq]
      · rw [if_neg heq, if_neg heq]
        exact lookup_eraseChildren_other hq rest
    · simp only [Bool.not_true]
      obtain ⟨d, hd⟩ := isChildOf_exists hcase
      rw [lookupCell, if_neg (fun hh : e.1 = q => (hq d) (hh ▸ hd))]
      exact lookup_eraseChildren_other hq rest

theorem covers_transfer {t : Nat} {S : List (Cell × ℚ)} {c0 : Cell} {v0 : ℚ}
    {q : Cell} (h : ¬ q.anc c0) (w : ℚ) :
    Covers t S q w ↔ Covers t (S ++ [(c0, v0)]) q w :=
  ⟨covers_mono (fun r hr => List.mem_append_left _ hr),
   fun h2 => covers_drop_new h2 h⟩

theorem mergeable_transfer {t : Nat} {S : List (Cell × ℚ)} {c0 : Cell}
    {v0 : ℚ} {p2 : Cell}
    (h : ∀ k : Fin 7, ¬ Cell.anc (childCell p2.base p2.path k) c0) :
    Mergeable t S p2 ↔ Mergeable t (S ++ [(c0, v0)]) p2 := by
  unfold Mergeable
  refine and_congr Iff.rfl (forall_congr' fun k => ?_)
  constructor
  · rintro ⟨w, hw⟩
    exact ⟨w, covers_mono (fun r hr => List.mem_append_left _ hr) hw⟩
  · rintro ⟨w, hw⟩
    exact ⟨w, covers_drop_new hw (h k)⟩

theorem topCell_nil {t : Nat} {S : List (Cell × ℚ)} {b : Nat} :
    TopCell t S ⟨b, []⟩ :=
  fun _ _ heq => absurd heq (by simp)

theorem topCell_cons_iff {t : Nat} {S : List (Cell × ℚ)} {b : Nat} {dq : Fin 7}
    {restq : List (Fin 7)} :
    TopCell t S ⟨b, dq :: restq⟩ ↔ ¬ Mergeable t S ⟨b, restq⟩ := by
  constructor
  · intro h
    exact h dq restq rfl
  · intro h d2 rest2 heq
    injection heq with h1 h2
    subst h1
    subst h2
    exact h

/-- Correctness of the bottom-up compaction walk: if the map holds the new
record's branch value at the current cell, agrees with the old canonical
characterization away from that branch, and is empty strictly below it,
then running the walk yields the canonical characterization of the enlarged
record set. -/
theorem cascade_characterizes (t : Nat) (S : List (Cell × ℚ)) (c0 : Cell)
    (v0 : ℚ) (hadm2 : AdmRecords (S ++ [(c0, v0)])) :
    ∀ (path : List (Fin 7)) (m : HexMap),
      Cell.anc ⟨c0.base, path⟩ c0 →
      (∃ vx, lookupCell m ⟨c0.base, path⟩ = some vx ∧
        Covers t (S ++ [(c0, v0)]) ⟨c0.base, path⟩ vx) →
      (∀ (q : Cell) (w : ℚ), q ≠ ⟨c0.base, path⟩ →
        ¬ Cell.anc ⟨c0.base, path⟩ q →
        (lookupCell m q = some w ↔ Covers t S q w ∧ TopCell t S q)) →
      (∀ q : Cell, Cell.anc ⟨c0.base, path⟩ q → q ≠ ⟨c0.base, path⟩ →
        lookupCell m q = none) →
      ∀ (q : Cell) (w : ℚ),
        lookupCell (compactUp t c0.base path m) q = some w ↔
          Covers t (S ++ [(c0, v0)]) q w ∧ TopCell t (S ++ [(c0, v0)]) q
  | [], m => fun hx hvx hii hiii => by
    obtain ⟨vx, hlx, hcx⟩ := hvx
    intro q w
    show lookupCell m q = some w ↔ _
    by_cases hqx : q = ⟨c0.base, []⟩
    · subst hqx
      rw [hlx]
      constructor
      · intro h
        have hw : vx = w := Option.some.inj h
        exact ⟨hw ▸ hcx, topCell_nil⟩
      · rintro ⟨hcov, -⟩
        rw [covers_unique hadm2 hcx hcov]
    · by_cases hanc : Cell.anc ⟨c0.base, []⟩ q
      · rw [hiii q hanc hqx]
        constructor
        · intro h
          cases h
        · rintro ⟨hcov, htop⟩
          exact absurd htop (not_top_of_desc hadm2 hcx hanc hqx hcov)
      · have hnq : ¬ q.anc c0 := by
          intro hq
          exact hanc (anc_of_anc_anc hx hq (by simp))
        refine Iff.trans (hii q w hqx hanc) (and_congr (covers_transfer hnq w) ?_)
        obtain ⟨qb, qpath⟩ := q
        rcases qpath with _ | ⟨dq, restq⟩
        · exact ⟨fun _ => topCell_nil, fun _ => topCell_nil⟩
        · rw [topCell_cons_iff, topCell_cons_iff]
          refine not_congr (mergeable_transfer ?_)
          intro k hk
          have hk2 : Cell.anc (childCell qb restq k) c0 := hk
          have hpar : Cell.anc ⟨qb, restq⟩ c0 := anc_cons_parent hk2
          apply hanc
          have hxpar : Cell.anc ⟨c0.base, []⟩ ⟨qb, restq⟩ :=
            anc_of_anc_anc hx hpar (by simp)
          exact anc_trans hxpar (anc_child qb restq dq)
  | d :: rest, m => fun hx hvx hii hiii => by
    obtain ⟨vx, hlx, hcx⟩ := hvx
    have hxp : Cell.anc ⟨c0.base, rest⟩ c0 := anc_cons_parent hx
    have hxlen : rest.length + 1 ≤ c0.path.length := by
      have h2 : (d :: rest).length ≤ c0.path.length := hx.2.1
      simpa using h2
    -- each sibling of the current cell is not an ancestor of the new record
    have hsib_nanc : ∀ i : Fin 7, i ≠ d →
        ¬ Cell.anc (childCell c0.base rest i) c0 := by
      intro i hid hanc
      have hlen : (childCell c0.base rest i).path.length =
          (⟨c0.base, d :: rest⟩ : Cell).path.length := by simp [childCell]
      have heq := anc_unique_at_length hanc hx hlen
      have := congrArg Cell.path heq
      simp [childCell] at this
      exact hid this
    -- a sibling's map entry is exactly its canonical value
    have hsibiff : ∀ (i : Fin 7), i ≠ d → ∀ (w : ℚ),
        (lookupCell m (childCell c0.base rest i) = some w ↔
          Covers t (S ++ [(c0, v0)]) (childCell c0.base rest i) w) := by
      intro i hid w
      have hne_x : childCell c0.base rest i ≠ ⟨c0.base, d :: rest⟩ := by
        intro hh
        have := congrArg Cell.path hh
        simp [childCell] at this
        exact hid this
      have hnot_anc :
          ¬ Cell.anc ⟨c0.base, d :: rest⟩ (childCell c0.base rest i) := by
        intro hh
        exact hne_x (anc_eq_of_length hh (by simp [childCell])).symm
      have htopS : TopCell t S (childCell c0.base rest i) := by
        intro dq restq heq hm
        have heq2 : i :: rest = dq :: restq := heq
        injection heq2 with h1 h2
        subst h1
        subst h2
        obtain ⟨w2, hw2⟩ := hm.2 d
        exact not_covers_anc_new hadm2 hw2 hx
      refine Iff.trans (hii (childCell c0.base rest i) w hne_x hnot_anc) ?_
      constructor
      · rintro ⟨hcS, -⟩
        exact covers_mono (fun r hr => List.mem_append_left _ hr) hcS
      · intro hc2
        exact ⟨covers_drop_new hc2 (hsib_nanc i hid), htopS⟩
    rw [compactUp]
    rcases hc : compactF t ⟨c0.base, rest⟩
        (fun i => lookupCell m (childCell c0.base rest i)) with _ | s
    · -- no merge at the parent: the walk stops and the map is canonical
      have hnm2 : ¬ Mergeable t (S ++ [(c0, v0)]) ⟨c0.base, rest⟩ := by
        intro hm
        rcases compactF_none_inv hc with hres | ⟨i, hnone⟩
        · have hres2 : rest.length < t := hres
          have hm1 : t ≤ rest.length := hm.1
          omega
        · have hnone2 : lookupCell m (childCell c0.base rest i) = none := hnone
          by_cases hid : i = d
          · subst hid
            have hlx2 : lookupCell m (childCell c0.base rest i) = some vx := hlx
            rw [hlx2] at hnone2
            cases hnone2
          · obtain ⟨w2, hw2⟩ := hm.2 i
            have := (hsibiff i hid w2).mpr hw2
            rw [this] at hnone2
            cases hnone2
      have hnot_cov_p : ∀ w2, ¬ Covers t (S ++ [(c0, v0)]) ⟨c0.base, rest⟩ w2 := by
        intro w2 hcov
        cases hcov with
        | leaf h =>
          rcases List.mem_append.mp h with h | h
          · exact (adm_append_rel hadm2 h).1 hxp
          · rcases List.mem_cons.mp h with heq | h
            · have hcc : (⟨c0.base, rest⟩ : Cell) = c0 := congrArg Prod.fst heq
              have := congrArg (fun c : Cell => c.path.length) hcc
              simp at this
              omega
            · cases h
        | merge f hres hch =>
          exact hnm2 ⟨hres, fun k => ⟨f k, hch k⟩⟩
      have hchain := not_covers_chain hadm2 hxp
        (by show rest.length < c0.path.length; omega) hnot_cov_p
      intro q w
      show lookupCell m q = some w ↔ _
      by_cases hqx : q = ⟨c0.base, d :: rest⟩
      · subst hqx
        rw [hlx]
        constructor
        · intro h
          have hw : vx = w := Option.some.inj h
          exact ⟨hw ▸ hcx, topCell_cons_iff.mpr hnm2⟩
        · rintro ⟨hcov, -⟩
          rw [covers_unique hadm2 hcx hcov]
      by_cases hancxq : Cell.anc ⟨c0.base, d :: rest⟩ q
      · rw [hiii q hancxq hqx]
        constructor
        · intro h
          cases h
        · rintro ⟨hcov, htop⟩
          exact absurd htop (not_top_of_desc hadm2 hcx hancxq hqx hcov)
      by_cases hqp : q = ⟨c0.base, rest⟩
      · subst hqp
        have hpx : (⟨c0.base, rest⟩ : Cell) ≠ ⟨c0.base, d :: rest⟩ := by
          intro hh
          have := congrArg (fun c : Cell => c.path.length) hh
          simp at this
        rw [hii _ w hpx (not_cons_anc_tail c0.base c0.base d rest)]
        constructor
        · rintro ⟨hcov, -⟩
          exact absurd hxp (fun hh => not_covers_anc_new hadm2 hcov hh)
        · rintro ⟨hcov, -⟩
          exact absurd hcov (hnot_cov_p w)
      by_cases hpq : Cell.anc ⟨c0.base, rest⟩ q
      · -- q lies strictly below the candidate parent but not below the
        -- current cell: the old characterization transfers unchanged
        have hplen : rest.length < q.path.length :=
          anc_strict_length hpq (fun hh => hqp hh.symm)
        have hnq : ¬ q.anc c0 := by
          intro hq0
          exact hancxq (anc_of_anc_anc hx hq0 (by simp; omega))
        refine Iff.trans (hii q w hqx hancxq)
          (and_congr (covers_transfer hnq w) ?_)
        by_cases hql1 : q.path.length = rest.length + 1
        · obtain ⟨j, hj⟩ := anc_level_succ hpq hql1
          subst hj
          rw [topCell_cons_iff, topCell_cons_iff]
          have hmergeS : ¬ Mergeable t S ⟨c0.base, rest⟩ := by
            intro hm
            obtain ⟨w2, hw2⟩ := hm.2 d
            exact not_covers_anc_new hadm2 hw2 hx
          exact ⟨fun _ => hnm2, fun _ => hmergeS⟩
        · -- q is deeper: its parent's children are all unrelated to the
          -- new record
          obtain ⟨qb, qpath⟩ := q
          rcases qpath with _ | ⟨dq, restq⟩
          · exact ⟨fun _ => topCell_nil, fun _ => topCell_nil⟩
          rw [topCell_cons_iff, topCell_cons_iff]
          refine not_congr (mergeable_transfer ?_)
          intro k hk
          have hk2 : Cell.anc (⟨qb, k :: restq⟩ : Cell) c0 := hk
          apply hancxq
          have hlq : rest.length + 1 ≤ restq.length := by
            simp only [Cell.path, List.length_cons] at hplen hql1 ⊢
            simp at hplen hql1
            omega
          have hxch : Cell.anc ⟨c0.base, d :: rest⟩ ⟨qb, k :: restq⟩ :=
            anc_of_anc_anc hx hk2 (by simp; omega)
          have hxpar : Cell.anc ⟨c0.base, d :: rest⟩ ⟨qb, restq⟩ :=
            anc_of_anc_cons_le hxch (by simp; omega)
          exact anc_trans hxpar (anc_child qb restq dq)
      by_cases hqanc : Cell.anc q c0
      · -- q is a strict ancestor of the candidate parent: no value on
        -- either side
        have hql : q.path.length < rest.length := by
          by_contra hge
          push_neg at hge
          exact hpq (anc_of_anc_anc hxp hqanc hge)
        rw [hii q w hqx hancxq]
        constructor
        · rintro ⟨hcov, -⟩
          exact absurd hqanc (fun hh => not_covers_anc_new hadm2 hcov hh)
        · rintro ⟨hcov, -⟩
          exact absurd hcov (hchain (rest.length - q.path.length) q hqanc
            (by show q.path.length + (rest.length - q.path.length) = rest.length
                omega) w)
      · -- q is unrelated to the new record's branch
        refine Iff.trans (hii q w hqx hancxq)
          (and_congr (covers_transfer hqanc w) ?_)
        obtain ⟨qb, qpath⟩ := q
        rcases qpath with _ | ⟨dq, restq⟩
        · exact ⟨fun _ => topCell_nil, fun _ => topCell_nil⟩
        rw [topCell_cons_iff, topCell_cons_iff]
        by_cases hkanc : ∃ k : Fin 7, Cell.anc (⟨qb, k :: restq⟩ : Cell) c0
        · obtain ⟨k, hk⟩ := hkanc
          have hpar : Cell.anc ⟨qb, restq⟩ c0 := anc_cons_parent hk
          have hplt : restq.length < rest.length := by
            by_contra hge
            push_neg at hge
            by_cases heqlen : restq.length = rest.length
            · have : (⟨qb, restq⟩ : Cell) = ⟨c0.base, rest⟩ :=
                anc_unique_at_length hpar hxp (by simpa using heqlen)
              apply hpq
              rw [← this]
              exact anc_child qb restq dq
            · apply hancxq
              have hxpar : Cell.anc ⟨c0.base, d :: rest⟩ ⟨qb, restq⟩ :=
                anc_of_anc_anc hx hpar (by simp; omega)
              exact anc_trans hxpar (anc_child qb restq dq)
          have hnm2q : ¬ Mergeable t (S ++ [(c0, v0)]) ⟨qb, restq⟩ := by
            intro hm
            obtain ⟨w2, hw2⟩ := hm.2 k
            exact hchain (rest.length - (restq.length + 1)) ⟨qb, k :: restq⟩
              hk (by simp; omega) w2 hw2
          have hnmSq : ¬ Mergeable t S ⟨qb, restq⟩ := by
            intro hm
            obtain ⟨w2, hw2⟩ := hm.2 k
            exact not_covers_anc_new hadm2 hw2 hk
          exact ⟨fun _ => hnm2q, fun _ => hnmSq⟩
        · push_neg at hkanc
          exact not_congr (mergeable_transfer hkanc)
    · -- the parent merges: update the map and continue upward
      obtain ⟨hres, f, hfl, hsum⟩ := compactF_some_inv hc
      have hfl2 : ∀ i : Fin 7,
          lookupCell m (childCell c0.base rest i) = some (f i) := hfl
      have hfd : f d = vx := by
        have hx2 : lookupCell m ⟨c0.base, d :: rest⟩ = some (f d) := hfl2 d
        rw [hlx] at hx2
        exact (Option.some.inj hx2).symm
      have hcov_children : ∀ i : Fin 7,
          Covers t (S ++ [(c0, v0)]) (childCell c0.base rest i) (f i) := by
        intro i
        by_cases hid : i = d
        · subst hid
          show Covers t (S ++ [(c0, v0)]) ⟨c0.base, i :: rest⟩ (f i)
          rw [hfd]
          exact hcx
        · exact (hsibiff i hid (f i)).mp (hfl2 i)
      have hcovp : Covers t (S ++ [(c0, v0)]) ⟨c0.base, rest⟩ s := by
        subst hsum
        exact Covers.merge f hres hcov_children
      refine cascade_characterizes t S c0 v0 hadm2 rest
        (insertRaw (eraseChildren m c0.base rest) ⟨c0.base, rest⟩ s)
        hxp ⟨s, by rw [lookup_insertRaw, if_pos rfl], hcovp⟩ ?_ ?_
      · -- away from the parent the map is unchanged
        intro q w hqp hnpq
        have hlq : lookupCell
            (insertRaw (eraseChildren m c0.base rest) ⟨c0.base, rest⟩ s) q =
            lookupCell m q := by
          rw [lookup_insertRaw, if_neg (fun hh => hqp hh.symm)]
          exact lookup_eraseChildren_other
            (fun k hk => hnpq (by rw [hk]; exact anc_child c0.base rest k)) m
        rw [hlq]
        refine hii q w ?_ ?_
        · intro hh
          exact hnpq (hh ▸ anc_child c0.base rest d)
        · intro hh
          exact hnpq (anc_trans (anc_child c0.base rest d) hh)
      · -- strictly below the parent the updated map is empty
        intro q hpanc hqnep
        by_cases hqch : ∃ k : Fin 7, q = childCell c0.base rest k
        · obtain ⟨k, rfl⟩ := hqch
          rw [lookup_insertRaw, if_neg (parent_ne_child c0.base rest k)]
          exact lookup_eraseChildren_child c0.base rest k m
        · push_neg at hqch
          rw [lookup_insertRaw, if_neg (fun hh => hqnep hh.symm),
            lookup_eraseChildren_other hqch m]
          have hqlen : rest.length < q.path.length :=
            anc_strict_length hpanc (Ne.symm hqnep)
          have hqlen2 : rest.length + 1 < q.path.length := by
            by_cases hql1 : q.path.length = rest.length + 1
            · obtain ⟨j, hj⟩ := anc_level_succ hpanc hql1
              exact absurd hj (hqch j)
            · omega
          obtain ⟨j, hj⟩ := exists_mid hpanc
            (by show rest.length + 1 ≤ q.path.length; omega)
          have hj2 : Cell.anc (childCell c0.base rest j) q := hj
          by_cases hjd : j = d
          · subst hjd
            refine hiii q hj2 ?_
            intro hh
            exact hqch j hh
          · have hqx2 : q ≠ ⟨c0.base, d :: rest⟩ := fun hh => hqch d hh
            have hnxq : ¬ Cell.anc ⟨c0.base, d :: rest⟩ q := by
              intro hh
              have heq : (⟨c0.base, d :: rest⟩ : Cell) = childCell c0.base rest j :=
                anc_unique_at_length hh hj2 (by simp [childCell])
              have := congrArg Cell.path heq
              simp [childCell] at this
              exact hjd this.symm
            cases hlookup : lookupCell m q with
            | none => rfl
            | some w2 =>
              exfalso
              obtain ⟨hcovq, htopq⟩ := (hii q w2 hqx2 hnxq).mp hlookup
              have hsibS : Covers t S (childCell c0.base rest j) (f j) :=
                covers_drop_new ((hsibiff j hjd (f j)).mp (hfl2 j))
                  (hsib_nanc j hjd)
              refine not_top_of_desc (adm_sublist hadm2) hsibS hj2 ?_ hcovq htopq
              intro hh
              rw [hh] at hqlen2
              simp [childCell] at hqlen2

/-- One record insertion turns the canonical characterization for `S` into
the one for `S ++ [(c0, v0)]`. -/
theorem insertRecord_characterizes (t : Nat) (S : List (Cell × ℚ)) (c0 : Cell)
    (v0 : ℚ) (hadm2 : AdmRecords (S ++ [(c0, v0)])) (m : HexMap)
    (hm : ∀ (q : Cell) (w : ℚ),
      lookupCell m q = some w ↔ Covers t S q w ∧ TopCell t S q) :
    ∀ (q : Cell) (w : ℚ),
      lookupCell (insertRecord t m c0 v0) q = some w ↔
        Covers t (S ++ [(c0, v0)]) q w ∧ TopCell t (S ++ [(c0, v0)]) q := by
  refine cascade_characterizes t S c0 v0 hadm2 c0.path (insertRaw m c0 v0)
    ?_ ?_ ?_ ?_
  · exact anc_refl c0
  · refine ⟨v0, ?_, Covers.leaf (List.mem_append_right S (List.mem_cons_self _ _))⟩
    rw [lookup_insertRaw]
    exact if_pos rfl
  · intro q w hqne hnanc
    rw [lookup_insertRaw, if_neg (fun hh => hqne hh.symm)]
    exact hm q w
  · intro q hanc hne
    rw [lookup_insertRaw, if_neg (fun hh => hne hh.symm)]
    cases hlq : lookupCell m q with
    | none => rfl
    | some w =>
      exfalso
      obtain ⟨hcov, -⟩ := (hm q w).mp hlq
      obtain ⟨r, hr, hqr⟩ := covers_anc_leaf hcov
      exact (adm_append_rel hadm2 hr).2 (anc_trans hanc hqr)

/-- The combine aggregation from the empty map realizes the canonical
characterization of its (unordered) record set. -/
theorem runCombine_characterizes (t : Nat) :
    ∀ l : List (Cell × ℚ), AdmRecords l →
      ∀ (q : Cell) (w : ℚ),
        lookupCell (runCombine t l) q = some w ↔
          Covers t l q w ∧ TopCell t l q := by
  intro l
  induction l using List.reverseRecOn with
  | nil =>
    intro _ q w
    constructor
    · intro h
      cases h
    · rintro ⟨hcov, -⟩
      exact (not_covers_nil hcov).elim
  | append_singleton l r ih =>
    intro hadm
    have hadm' : AdmRecords l := adm_sublist hadm
    have hrun : runCombine t (l ++ [r]) =
        insertRecord t (runCombine t l) r.1 r.2 := by
      simp [runCombine, List.foldl_append]
    rw [hrun]
    obtain ⟨c0, v0⟩ := r
    exact insertRecord_characterizes t l c0 v0 hadm (runCombine t l) (ih hadm')

theorem covers_perm {t : Nat} {l l2 : List (Cell × ℚ)} (hp : l.Perm l2)
    {q : Cell} {w : ℚ} : Covers t l q w ↔ Covers t l2 q w :=
  ⟨covers_mono (fun r hr => hp.subset hr),
   covers_mono (fun r hr => hp.symm.subset hr)⟩

theorem topCell_perm {t : Nat} {l l2 : List (Cell × ℚ)} (hp : l.Perm l2)
    {q : Cell} : TopCell t l q ↔ TopCell t l2 q := by
  constructor
  · intro h d rest heq hm
    refine h d rest heq ⟨hm.1, fun k => ?_⟩
    obtain ⟨w, hw⟩ := hm.2 k
    exact ⟨w, (covers_perm hp).mpr hw⟩
  · intro h d rest heq hm
    refine h d rest heq ⟨hm.1, fun k => ?_⟩
    obtain ⟨w, hw⟩ := hm.2 k
    exact ⟨w, (covers_perm hp).mp hw⟩

/-- C4 counterexample: two records at the same cell with different values;
swapping their order changes the final index (last write wins), so the
claim fails for arbitrary record multisets. -/
theorem combine_order_dependent_cex :
    ([((⟨0, []⟩ : Cell), (1 : ℚ)), (⟨0, []⟩, 2)] : List (Cell × ℚ)).Perm
      [(⟨0, []⟩, 2), (⟨0, []⟩, 1)] ∧
    lookupCell (runCombine 0 [((⟨0, []⟩ : Cell), (1 : ℚ)), (⟨0, []⟩, 2)])
      ⟨0, []⟩ = some 2 ∧
    lookupCell (runCombine 0 [((⟨0, []⟩ : Cell), (2 : ℚ)), (⟨0, []⟩, 1)])
      ⟨0, []⟩ = some 1 :=
  ⟨List.Perm.swap _ _ _, rfl, rfl⟩

/-- C4 (amended): for records on pairwise distinct, pairwise
non-ancestor-related cells — as the tessellation stage produces — the final
index is the same set of (cell, value) pairs for every insertion order. -/
theorem combine_order_independent (t : Nat) (l l2 : List (Cell × ℚ))
    (hperm : l.Perm l2) (hadm : AdmRecords l) :
    ∀ q : Cell, lookupCell (runCombine t l) q = lookupCell (runCombine t l2) q := by
  intro q
  have hadm2 : AdmRecords l2 := by
    have hsymm : ∀ {x y : Cell × ℚ},
        (¬ x.1.anc y.1 ∧ ¬ y.1.anc x.1) → (¬ y.1.anc x.1 ∧ ¬ x.1.anc y.1) :=
      fun h => ⟨h.2, h.1⟩
    exact (hperm.pairwise_iff hsymm).mp hadm
  have h1 := runCombine_characterizes t l hadm
  have h2 := runCombine_characterizes t l2 hadm2
  cases hl : lookupCell (runCombine t l) q with
  | some w =>
    obtain ⟨hcov, htop⟩ := (h1 q w).mp hl
    exact ((h2 q w).mpr
      ⟨(covers_perm hperm).mp hcov, (topCell_perm hperm).mp htop⟩).symm
  | none =>
    cases hl2 : lookupCell (runCombine t l2) q with
    | none => rfl
    | some w =>
      obtain ⟨hcov, htop⟩ := (h2 q w).mp hl2
      have := (h1 q w).mpr
        ⟨(covers_perm hperm).mpr hcov, (topCell_perm hperm).mpr htop⟩
      rw [hl] at this
      cases this

/-- C4 witness: two admissible records inserted in both orders give the
same index. -/
theorem combine_order_independent_witness :
    lookupCell (runCombine 3 [((⟨0, [0]⟩ : Cell), (1 : ℚ)), (⟨1, []⟩, 2)])
      ⟨0, [0]⟩ =
    lookupCell (runCombine 3 [((⟨1, []⟩ : Cell), (2 : ℚ)), (⟨0, [0]⟩, 1)])
      ⟨0, [0]⟩ :=
  combine_order_independent 3 _ _ (List.Perm.swap _ _ _) (by decide) ⟨0, [0]⟩

/-- C2 witness. -/
theorem no_merge_below_target_witness :
    compactF 3 ⟨0, []⟩ (fun _ => some 1) = none ∧
    (∀ e ∈ runCombine 1 [((⟨0, [0]⟩ : Cell), (5 : ℚ))], 1 ≤ e.1.res) :=
  ⟨(no_merge_below_target 3).1 ⟨0, []⟩ (fun _ => some 1) (by decide),
   (no_merge_below_target 1).2 [((⟨0, [0]⟩ : Cell), (5 : ℚ))]
     (by intro r hr; rcases List.mem_cons.mp hr with rfl | hr
         · decide
         · cases hr)⟩

end Gpw
